import Mathlib

/-!
Verification of the byte-pair-encoding tokenizer from
`src/byte_pair_encoding.rs` (crate `tokenizers_rs`).

Shallow embedding conventions:
* a Rust `String` is modelled as `List Char` (`Str`); Rust's `String` ordering
  (byte-wise lexicographic over UTF-8) coincides with the lexicographic order
  on the code-point list, which is the Mathlib order on `List Char`;
* a Rust `Vec<String>` (a word: its symbol sequence) is `List Str` (`Word`);
  its derived `Ord` is again the Mathlib lexicographic order;
* `HashMap<Vec<String>, usize>` is an association list `Model` whose explicit
  entry order stands for the hash map's (arbitrary) iteration order; counts
  are read through a total default-0 view, exactly like `entry(..).or_insert(0)`;
* `HashMap<String, Vec<String>>` (the trained dictionary) is the association
  list `Dict` with overwriting insert, like `HashMap::insert`;
* a Rust panic (a failed `assert!`, an arithmetic underflow on `usize`
  subtraction in debug mode / the out-of-bounds index it causes in release
  mode) is `Option.none`; `tokenize`'s recoverable `Err` is also `none` since
  the only error value is the fixed "Word not found in vocabulary" error.
-/

/-- Model of Rust `String`: the list of its characters (code points). -/
abbrev Str : Type := List Char

/-- Model of Rust `Vec<String>`: a word as a sequence of symbols. -/
abbrev Word : Type := List Str

/-- Model of `HashMap<Vec<String>, usize>` as an association list; the list
order records one possible hash-map iteration order. -/
abbrev Model : Type := List (Word × Nat)

/-- Model of `HashMap<String, Vec<String>>` (the trained dictionary). -/
abbrev Dict : Type := List (Str × Word)

namespace BPE

/-- `BytePairEncoding::PUNCTUATION`. -/
def PUNCTUATION : List Char := [' ', '.', ',', '!', '?', '\n']

/-- `BytePairEncoding::START_TOKEN`. -/
def START_TOKEN : Str := "<|startoftext|>".data

/-- `BytePairEncoding::END_TOKEN`. -/
def END_TOKEN : Str := "<|endoftext|>".data

/-- The Rust struct `BytePairEncoding`. -/
structure BytePairEncoding : Type where
  vocab_size : Nat
  tokenizer : Dict
deriving DecidableEq

/-- Inner loop of `pre_tokenize`: `buf` is the current `word` buffer (Rust
keeps it as a `Vec<String>` of single-character strings and joins it on flush;
the join of those singletons is exactly the character list `buf`).  For each
character: if the buffer is non-empty and the character is punctuation, flush
the buffer; then always push the character.  After the loop the buffer is
flushed unconditionally. -/
def preTokGo (buf : Str) : Str → List Str
  | [] => [buf]
  | c :: cs =>
    if buf ≠ [] ∧ c ∈ PUNCTUATION then buf :: preTokGo [c] cs
    else preTokGo (buf ++ [c]) cs

/-- `BytePairEncoding::pre_tokenize`. -/
def pre_tokenize (corpus : Str) : List Str := preTokGo [] corpus

/-- `*map.entry(w).or_insert(0) += c` on the association-list model. -/
def addCount (m : Model) (w : Word) (c : Nat) : Model :=
  match m with
  | [] => [(w, c)]
  | (w', c') :: rest =>
    if w' = w then (w', c' + c) :: rest else (w', c') :: addCount rest w c

/-- `BytePairEncoding::text_to_map`: fold the word units into a frequency
map, splitting each unit into one single-character symbol per character. -/
def text_to_map (text : List Str) : Model :=
  text.foldl (fun words word => addCount words (word.map (fun c => [c])) 1) []

/-- The adjacent pairs `vec![word[i], word[i+1]]` for `i in 0..n-1`, in
index order (callers guarantee `n ≥ 1`, so the `usize` bound `n - 1` is the
truncated subtraction). -/
def adjPairs (w : Word) : List Word :=
  (List.range (w.length - 1)).map (fun i => [w.getD i [], w.getD (i + 1) []])

/-- The running state of `get_most_frequent_pair`: the pair-frequency map
(total default-0 view of the `pairs` hash map), `most_freq_pair`, and
`highest_freq`. -/
structure GState : Type where
  cnt : Word → Nat
  best : Word
  hf : Nat

/-- One iteration of the inner loop of `get_most_frequent_pair`: bump the
pair's entry by the word's frequency, then compare the new entry with
`highest_freq` (`Greater` replaces pair and frequency, `Equal` keeps the
lexicographically greater pair via `Ord::max`, `Less` does nothing). -/
def gmfpStep (freq : Nat) (st : GState) (p : Word) : GState :=
  let c := st.cnt p + freq
  let cnt' := fun q => if q = p then c else st.cnt q
  if st.hf < c then ⟨cnt', p, c⟩
  else if c = st.hf then ⟨cnt', max st.best p, st.hf⟩
  else ⟨cnt', st.best, st.hf⟩

/-- Outer loop of `get_most_frequent_pair` over the words of the model.  A
word of length 0 makes the Rust loop bound `0..n - 1` underflow, which
panics (debug) or indexes out of bounds (release): modelled as `none`. -/
def gmfpGo : Model → GState → Option GState
  | [], st => some st
  | (w, f) :: rest, st =>
    if w.length = 0 then none
    else gmfpGo rest ((adjPairs w).foldl (gmfpStep f) st)

/-- `BytePairEncoding::get_most_frequent_pair`. -/
def get_most_frequent_pair (m : Model) : Option (Word × Nat) :=
  (gmfpGo m ⟨fun _ => 0, [], 0⟩).map (fun st => (st.best, st.hf))

/-- The body of the `while i < new_word.len() - 1` loop of `merge_by_pair`
on one word: on a match, `new_word[i]` becomes the concatenation and
`new_word[i+1]` is removed; `i` is incremented every iteration.  The `fuel`
argument is the loop variant `new_word.len() - i`, which every iteration
strictly decreases (a merge shortens the list, otherwise `i` grows), so with
initial fuel `w.length - i` the fuel never runs out (`mergeLoopGo_spec`);
it only makes the recursion structural. -/
def mergeLoopGo (p0 p1 : Str) : Nat → Word → Nat → Word
  | 0, w, _ => w
  | fuel + 1, w, i =>
    if i < w.length - 1 then
      if w.getD i [] = p0 ∧ w.getD (i + 1) [] = p1 then
        mergeLoopGo p0 p1 fuel ((w.set i (p0 ++ p1)).eraseIdx (i + 1)) (i + 1)
      else
        mergeLoopGo p0 p1 fuel w (i + 1)
    else w

/-- The `while` loop of `merge_by_pair` on one word, starting at index `i`.
Callers guarantee the word is non-empty, so the `usize` bound `len - 1` is
the truncated subtraction and the loop is panic-free (the length never drops
below 1). -/
def mergeLoop (p0 p1 : Str) (w : Word) (i : Nat) : Word :=
  mergeLoopGo p0 p1 (w.length - i) w i

/-- Iteration of `merge_by_pair` over the model's entries, accumulating the
new map with coalescing (`*new_words.entry(new_word).or_insert(0) += freq`).
An empty word panics in the merge loop's bound computation: `none`. -/
def mergeGo (p0 p1 : Str) : Model → Model → Option Model
  | [], acc => some acc
  | (w, f) :: rest, acc =>
    if w.length = 0 then none
    else mergeGo p0 p1 rest (addCount acc (mergeLoop p0 p1 w 0) f)

/-- `BytePairEncoding::merge_by_pair`, with the two-element `pair` passed as
its components `p0`, `p1` (this is the only shape the trainer produces);
`pair_str = pair.join("")` is `p0 ++ p1`. -/
def merge_by_pair (m : Model) (p0 p1 : Str) : Option Model :=
  mergeGo p0 p1 m []

/-- `BytePairEncoding::build_vocablary`: the distinct characters of the
corpus (as singleton strings) plus the two marker tokens.  `dedup` models the
`HashSet` deduplication; only the length and membership of the result are
ever used, so the hash set's element order is irrelevant. -/
def build_vocablary (corpus : Str) : List Str :=
  corpus.dedup.map (fun c => [c]) ++ [START_TOKEN, END_TOKEN]

/-- `HashMap::insert` (overwrite) on the dictionary association list. -/
def dictInsert (d : Dict) (k : Str) (v : Word) : Dict :=
  match d with
  | [] => [(k, v)]
  | (k', v') :: rest =>
    if k' = k then (k, v) :: rest else (k', v') :: dictInsert rest k v

/-- The final fold of `BytePairEncoding::from`: map each remaining word's
surface string `word.join("")` to the word itself. -/
def buildDict (m : Model) : Dict :=
  m.foldl (fun map wf => dictInsert map wf.1.flatten wf.1) []

/-- The training `while max_vocab_size > vocab_size` loop, with fuel
`max_vocab_size - vocab_size` (each iteration increments `vocab_size` by one,
so the fuel is exactly the remaining loop count).  Returns the final corpus
model and achieved vocabulary size, or `none` on a panic. -/
def trainLoop : Nat → Model → Nat → Option (Model × Nat)
  | 0, m, v => some (m, v)
  | fuel + 1, m, v =>
    match get_most_frequent_pair m with
    | none => none
    | some (pair, freq) =>
      if freq = 0 then some (m, v)
      else
        match pair with
        | [p0, p1] =>
          match merge_by_pair m p0 p1 with
          | none => none
          | some m' => trainLoop fuel m' (v + 1)
        | _ => none

/-- `BytePairEncoding::from`.  The failed `assert!(max_vocab_size >
vocab_size)` is a panic (`none`); the `if max_vocab_size == vocab_size`
early-return that follows it in the source is kept even though the assert
makes it unreachable. -/
def fromCorpus (corpus : Str) (max_vocab_size : Nat) : Option BytePairEncoding :=
  let vocabulary := build_vocablary corpus
  let vocab_size := vocabulary.length - 2
  if max_vocab_size ≤ vocab_size then none
  else if max_vocab_size = vocab_size then some ⟨max_vocab_size, []⟩
  else
    match trainLoop (max_vocab_size - vocab_size) (text_to_map (pre_tokenize corpus)) vocab_size with
    | none => none
    | some (m, v) => some ⟨v, buildDict m⟩

/-- `HashMap::get` on the dictionary association list. -/
def getVal : Dict → Str → Option Word
  | [], _ => none
  | (k, v) :: rest, u => if k = u then some v else getVal rest u

/-- The lookup loop of `tokenize`: extend the accumulator with each word
unit's dictionary entry, failing on the first missing word (`?` early
return). -/
def tokenizeGo (d : Dict) (acc : List Str) : List Str → Option (List Str)
  | [] => some acc
  | u :: rest =>
    match getVal d u with
    | none => none
    | some tw => tokenizeGo d (acc ++ tw) rest

/-- `BytePairEncoding::tokenize`: start token, the looked-up symbol
sequences of the pre-tokenized units in order, end token. -/
def tokenize (bpe : BytePairEncoding) (text : Str) : Option (List Str) :=
  (tokenizeGo bpe.tokenizer [START_TOKEN] (pre_tokenize text)).map (· ++ [END_TOKEN])

/-- Modelled from the spec (§4.4 Merge Engine), as the comparison point of
the refinement claim C3: a single left-to-right non-overlapping scan; at a
match the two symbols become their concatenation and the scan resumes after
the merged symbol. -/
def mergeScanSpec (p0 p1 : Str) : Word → Word
  | a :: b :: rest =>
    if a = p0 ∧ b = p1 then (p0 ++ p1) :: mergeScanSpec p0 p1 rest
    else a :: mergeScanSpec p0 p1 (b :: rest)
  | w => w

/-- Sum of the counts of a corpus model. -/
def sumCounts (m : Model) : Nat := (m.map (fun wf => wf.2)).sum

/-- Aggregate frequency of a pair in a corpus model: over every word, the
word's count times the number of adjacent occurrences of the pair in it. -/
def aggFreq (m : Model) (p : Word) : Nat :=
  (m.map (fun wf => wf.2 * ((adjPairs wf.1).count p))).sum

/-- A pair occurs (adjacently) in some word of the model. -/
def occursIn (m : Model) (p : Word) : Prop :=
  ∃ wf ∈ m, p ∈ adjPairs wf.1



theorem preTokGo_flatten (cs : Str) : ∀ buf : Str, (preTokGo buf cs).flatten = buf ++ cs := by
  induction cs with
  | nil => intro buf; simp [preTokGo]
  | cons c cs ih =>
    intro buf
    simp only [preTokGo]
    by_cases h : buf ≠ [] ∧ c ∈ PUNCTUATION
    · simp [h, List.flatten, ih]
    · simp [h, ih]

/-- C7: concatenating the word units returned by `pre_tokenize`, in order,
reconstructs the original text exactly. -/
theorem C7_pre_tokenize_flatten_eq (corpus : Str) :
    (pre_tokenize corpus).flatten = corpus := by
  simpa using preTokGo_flatten corpus []

theorem mergeScanSpec_nil (p0 p1 : Str) : mergeScanSpec p0 p1 [] = [] := rfl

theorem mergeScanSpec_single (p0 p1 a : Str) : mergeScanSpec p0 p1 [a] = [a] := rfl

theorem mergeScanSpec_cons2 (p0 p1 a b : Str) (rest : Word) :
    mergeScanSpec p0 p1 (a :: b :: rest) =
      if a = p0 ∧ b = p1 then (p0 ++ p1) :: mergeScanSpec p0 p1 rest
      else a :: mergeScanSpec p0 p1 (b :: rest) := rfl

theorem mergeScanSpec_short (p0 p1 : Str) (w : Word) (h : w.length ≤ 1) :
    mergeScanSpec p0 p1 w = w := by
  match w with
  | [] => rfl
  | [a] => rfl
  | a :: b :: rest => simp at h

theorem mergeLoopGo_spec (p0 p1 : Str) :
    ∀ (fuel : Nat) (w : Word) (i : Nat), w.length - i ≤ fuel →
      mergeLoopGo p0 p1 fuel w i = w.take i ++ mergeScanSpec p0 p1 (w.drop i) := by
  intro fuel
  induction fuel with
  | zero =>
    intro w i h
    simp only [mergeLoopGo]
    rw [List.drop_eq_nil_of_le (by omega), mergeScanSpec_nil,
      List.take_of_length_le (by omega), List.append_nil]
  | succ fuel ih =>
    intro w i h
    by_cases hlt : i < w.length - 1
    · have hi1 : i < w.length := by omega
      have hi2 : i + 1 < w.length := by omega
      have htklen : (w.take i).length = i := by simp [List.length_take]; omega
      have hdrop : w.drop i = w[i] :: w[i + 1] :: w.drop (i + 2) := by
        rw [List.drop_eq_getElem_cons hi1, List.drop_eq_getElem_cons hi2]
      simp only [mergeLoopGo, if_pos hlt, List.getD_eq_getElem w [] hi1,
        List.getD_eq_getElem w [] hi2]
      by_cases hm : w[i] = p0 ∧ w[i + 1] = p1
      · rw [if_pos hm]
        have hw' : (w.set i (p0 ++ p1)).eraseIdx (i + 1) =
            w.take i ++ (p0 ++ p1) :: w.drop (i + 2) := by
          rw [List.set_eq_take_cons_drop (p0 ++ p1) hi1,
            List.eraseIdx_eq_take_drop_succ]
          have e1 : i + 1 = (w.take i).length + 1 := by omega
          rw [e1, List.take_append 1, List.drop_append 2]
          simp [List.drop_drop, min_eq_left hi1.le]
        rw [hw']
        have hlen2 : (w.take i ++ (p0 ++ p1) :: w.drop (i + 2)).length - (i + 1) ≤ fuel := by
          simp [List.length_append, List.length_drop, htklen]
          omega
        rw [ih _ _ hlen2]
        have e1 : i + 1 = (w.take i).length + 1 := by omega
        rw [e1, List.take_append 1, List.drop_append 1]
        rw [hdrop, mergeScanSpec_cons2, if_pos hm]
        simp
      · rw [if_neg hm]
        rw [ih w (i + 1) (by omega)]
        have hdrop1 : w.drop (i + 1) = w[i + 1] :: w.drop (i + 2) :=
          List.drop_eq_getElem_cons hi2
        have htk : w.take (i + 1) = w.take i ++ [w[i]] := by
          rw [List.take_succ, List.getElem?_eq_getElem hi1]
          rfl
        rw [htk, hdrop, mergeScanSpec_cons2, if_neg hm, ← hdrop1, List.append_assoc]
        rfl
    · simp only [mergeLoopGo, if_neg hlt]
      rw [mergeScanSpec_short _ _ _ (by simp [List.length_drop]; omega),
        List.take_append_drop]

theorem mergeLoop_eq_scan (p0 p1 : Str) (w : Word) :
    mergeLoop p0 p1 w 0 = mergeScanSpec p0 p1 w := by
  rw [mergeLoop, mergeLoopGo_spec p0 p1 (w.length - 0) w 0 (le_refl _)]
  simp

/-- C3: on every word, the `merge_by_pair` while-loop performs exactly one
left-to-right non-overlapping scan: each match of the pair is replaced by
the concatenation of its two symbols and the scan resumes after the merged
symbol without re-examining it; in particular `[a, a, a]` merged with the
pair `(a, a)` becomes `[a ++ a, a]`, which (for non-empty `a`) is neither
`[a ++ a ++ a]` nor `[a, a ++ a]`. -/
theorem C3_merge_single_scan (p0 p1 : Str) (w : Word) (a : Str) (ha : a ≠ []) :
    mergeLoop p0 p1 w 0 = mergeScanSpec p0 p1 w
    ∧ mergeLoop a a [a, a, a] 0 = [a ++ a, a]
    ∧ mergeLoop a a [a, a, a] 0 ≠ [a ++ a ++ a]
    ∧ mergeLoop a a [a, a, a] 0 ≠ [a, a ++ a] := by
  have hx : mergeLoop a a [a, a, a] 0 = [a ++ a, a] := by
    rw [mergeLoop_eq_scan, mergeScanSpec_cons2, if_pos ⟨rfl, rfl⟩, mergeScanSpec_single]
  refine ⟨mergeLoop_eq_scan p0 p1 w, hx, ?_, ?_⟩
  · rw [hx]
    simp
  · rw [hx]
    intro hcon
    rw [List.cons.injEq] at hcon
    have hlen := congrArg List.length hcon.1
    simp at hlen
    exact ha hlen

theorem C3_merge_single_scan_witness :
    (['w'] : Str) ≠ []
    ∧ (mergeLoop ['x'] ['y'] [['z']] 0 = mergeScanSpec ['x'] ['y'] [['z']]
      ∧ mergeLoop ['w'] ['w'] [['w'], ['w'], ['w']] 0 = [['w'] ++ ['w'], ['w']]
      ∧ mergeLoop ['w'] ['w'] [['w'], ['w'], ['w']] 0 ≠ [['w'] ++ ['w'] ++ ['w']]
      ∧ mergeLoop ['w'] ['w'] [['w'], ['w'], ['w']] 0 ≠ [['w'], ['w'] ++ ['w']]) :=
  ⟨by decide, C3_merge_single_scan ['x'] ['y'] [['z']] ['w'] (by decide)⟩


theorem tokenizeGo_all (d : Dict) (units : List Str) :
    ∀ acc : List Str, (∀ u ∈ units, (getVal d u).isSome) →
      tokenizeGo d acc units
        = some (acc ++ (units.map (fun u => (getVal d u).getD [])).flatten) := by
  induction units with
  | nil => intro acc _; simp [tokenizeGo]
  | cons u rest ih =>
    intro acc hall
    have hu := hall u (by simp)
    obtain ⟨tw, htw⟩ := Option.isSome_iff_exists.mp hu
    simp only [tokenizeGo, htw]
    rw [ih (acc ++ tw) (fun v hv => hall v (by simp [hv]))]
    simp [htw]

theorem tokenizeGo_missing (d : Dict) (units : List Str) :
    ∀ acc : List Str, (∃ u ∈ units, getVal d u = none) →
      tokenizeGo d acc units = none := by
  induction units with
  | nil => intro acc h; simp at h
  | cons u rest ih =>
    intro acc h
    rcases h with ⟨v, hv, hnone⟩
    rcases List.mem_cons.mp hv with rfl | hvrest
    · simp [tokenizeGo, hnone]
    · cases hget : getVal d u with
      | none => simp [tokenizeGo, hget]
      | some tw =>
        simp only [tokenizeGo, hget]
        exact ih _ ⟨v, hvrest, hnone⟩

/-- C5: `tokenize` succeeds exactly when every pre-tokenized word unit of
the input is a key of the dictionary; on success it returns the start
marker, the dictionary entries of the units in input order, and the end
marker; on any missing unit the whole call fails with no partial output. -/
theorem C5_tokenize_characterization (bpe : BytePairEncoding) (text : Str) :
    ((∀ u ∈ pre_tokenize text, (getVal bpe.tokenizer u).isSome) →
      tokenize bpe text
        = some ((START_TOKEN :: ((pre_tokenize text).map
            (fun u => (getVal bpe.tokenizer u).getD [])).flatten) ++ [END_TOKEN]))
    ∧ ((∃ u ∈ pre_tokenize text, getVal bpe.tokenizer u = none) →
      tokenize bpe text = none)
    ∧ ((tokenize bpe text).isSome ↔
      ∀ u ∈ pre_tokenize text, (getVal bpe.tokenizer u).isSome) := by
  refine ⟨?_, ?_, ?_⟩
  · intro hall
    rw [tokenize, tokenizeGo_all bpe.tokenizer _ _ hall]
    simp
  · intro hmiss
    rw [tokenize, tokenizeGo_missing bpe.tokenizer _ _ hmiss]
    simp
  · constructor
    · intro hsome
      by_contra hnot
      push_neg at hnot
      obtain ⟨u, hu, hmiss⟩ := hnot
      rw [tokenize, tokenizeGo_missing bpe.tokenizer _ _
        ⟨u, hu, Option.not_isSome_iff_eq_none.mp hmiss⟩] at hsome
      simp at hsome
    · intro hall
      rw [tokenize, tokenizeGo_all bpe.tokenizer _ _ hall]
      simp

theorem C5_tokenize_characterization_witness :
    tokenize ⟨3, [("ab".data, [['a'], ['b']])]⟩ "ab".data
      = some ((START_TOKEN :: ((pre_tokenize "ab".data).map
          (fun u => (getVal ([("ab".data, [['a'], ['b']])] : Dict) u).getD [])).flatten)
          ++ [END_TOKEN]) :=
  (C5_tokenize_characterization ⟨3, [("ab".data, [['a'], ['b']])]⟩ "ab".data).1 (by decide)

theorem sumCounts_addCount (m : Model) (w : Word) (c : Nat) :
    sumCounts (addCount m w c) = sumCounts m + c := by
  induction m with
  | nil => simp [addCount, sumCounts]
  | cons e rest ih =>
    obtain ⟨w', c'⟩ := e
    by_cases h : w' = w
    · simp [addCount, h, sumCounts]
      omega
    · simp [addCount, h, sumCounts] at ih ⊢
      omega

theorem text_to_map_foldl_sum (units : List Str) :
    ∀ m0 : Model,
      sumCounts (units.foldl (fun words word =>
        addCount words (word.map (fun c => [c])) 1) m0) = sumCounts m0 + units.length := by
  induction units with
  | nil => intro m0; simp
  | cons u rest ih =>
    intro m0
    simp only [List.foldl_cons, List.length_cons]
    rw [ih, sumCounts_addCount]
    omega

theorem mergeGo_sum (p0 p1 : Str) (src : Model) :
    ∀ (acc m' : Model), mergeGo p0 p1 src acc = some m' →
      sumCounts m' = sumCounts acc + sumCounts src := by
  induction src with
  | nil =>
    intro acc m' h
    simp [mergeGo] at h
    simp [← h, sumCounts]
  | cons e rest ih =>
    intro acc m' h
    obtain ⟨w, f⟩ := e
    simp only [mergeGo] at h
    by_cases hw : w.length = 0
    · simp [hw] at h
    · rw [if_neg hw] at h
      have := ih _ _ h
      rw [this, sumCounts_addCount]
      simp [sumCounts]
      omega

theorem trainLoop_sum (fuel : Nat) :
    ∀ (m : Model) (v : Nat) (r : Model × Nat), trainLoop fuel m v = some r →
      sumCounts r.1 = sumCounts m := by
  induction fuel with
  | zero =>
    intro m v r h
    simp only [trainLoop, Option.some.injEq] at h
    rw [← h]
  | succ fuel ih =>
    intro m v r h
    rw [trainLoop] at h
    split at h
    · simp at h
    · rename_i pair freq hg
      split at h
      · simp only [Option.some.injEq] at h
        rw [← h]
      · split at h
        · rename_i p0 p1
          split at h
          · simp at h
          · rename_i m2 hm
            have h1 := ih _ _ _ h
            have h2 := mergeGo_sum p0 p1 m [] m2 hm
            rw [h1]
            simpa [sumCounts] using h2
        · simp at h

/-- C6: the counts of the corpus model built by `text_to_map` sum to the
number of word units; `merge_by_pair` preserves that sum (coalesced words
have their counts added); hence the sum is unchanged in every corpus model
the training loop reaches. -/
theorem C6_count_sum_invariant (units : List Str) (m : Model) (p0 p1 : Str)
    (m' : Model) (fuel v : Nat) (r : Model × Nat) :
    sumCounts (text_to_map units) = units.length
    ∧ (merge_by_pair m p0 p1 = some m' → sumCounts m' = sumCounts m)
    ∧ (trainLoop fuel m v = some r → sumCounts r.1 = sumCounts m) := by
  refine ⟨?_, ?_, fun h => trainLoop_sum fuel m v r h⟩
  · rw [text_to_map, text_to_map_foldl_sum]
    simp [sumCounts]
  · intro h
    have := mergeGo_sum p0 p1 m [] m' h
    simpa [sumCounts] using this

theorem C6_count_sum_invariant_witness :
    sumCounts (text_to_map ["ab".data, "a".data]) = (["ab".data, "a".data]).length
    ∧ sumCounts [([['a', 'b']], 2)] = sumCounts [([['a'], ['b']], 2)]
    ∧ sumCounts ([([['a', 'b']], 2)] : Model) = sumCounts [([['a'], ['b']], 2)] := by
  have h := C6_count_sum_invariant ["ab".data, "a".data] [([['a'], ['b']], 2)]
    ['a'] ['b'] [([['a', 'b']], 2)] 1 0 ([([['a', 'b']], 2)], 1)
  exact ⟨h.1, h.2.1 (by decide), h.2.2 (by decide)⟩



/-- The flattened list of pair-count increments performed by
`get_most_frequent_pair`: for each word (in iteration order) and each
adjacent index, the pair together with the word's count. -/
def allIncs (m : Model) : List (Word × Nat) :=
  (m.map (fun wf => (adjPairs wf.1).map (fun p => (p, wf.2)))).flatten

/-- The total increment a pair has received from a list of increments. -/
def sumFreqIncs (incs : List (Word × Nat)) (p : Word) : Nat :=
  (incs.map (fun pf => if pf.1 = p then pf.2 else 0)).sum

theorem sumFreqIncs_nil (p : Word) : sumFreqIncs [] p = 0 := rfl

theorem sumFreqIncs_append (a b : List (Word × Nat)) (p : Word) :
    sumFreqIncs (a ++ b) p = sumFreqIncs a p + sumFreqIncs b p := by
  simp [sumFreqIncs]

theorem sumFreqIncs_single (q : Word) (f : Nat) (p : Word) :
    sumFreqIncs [(q, f)] p = if q = p then f else 0 := by
  simp [sumFreqIncs]

theorem word_nil_le (p : Word) : ([] : Word) ≤ p := by
  cases p with
  | nil => exact le_refl _
  | cons a l => exact le_of_lt (List.nil_lt_cons a l)

/-- Invariant of the accumulator state of `get_most_frequent_pair` after a
prefix `incs` of the increments: the entry map records the received
increments; `highest_freq` bounds every entry; and once any increment has
happened, `most_freq_pair` is the lexicographically greatest among the
incremented pairs whose entry equals `highest_freq`. -/
def GInv (incs : List (Word × Nat)) (st : GState) : Prop :=
  (∀ p, st.cnt p = sumFreqIncs incs p)
  ∧ (∀ p, sumFreqIncs incs p ≤ st.hf)
  ∧ (incs = [] → st.hf = 0 ∧ st.best = [])
  ∧ (incs ≠ [] → st.best ∈ incs.map Prod.fst
      ∧ sumFreqIncs incs st.best = st.hf
      ∧ ∀ p ∈ incs.map Prod.fst, sumFreqIncs incs p = st.hf → p ≤ st.best)

theorem GInv_step (incs : List (Word × Nat)) (st : GState) (q : Word) (f : Nat)
    (h : GInv incs st) : GInv (incs ++ [(q, f)]) (gmfpStep f st q) := by
  obtain ⟨h1, h2, h3, h4⟩ := h
  have hS : ∀ p, sumFreqIncs (incs ++ [(q, f)]) p
      = sumFreqIncs incs p + (if q = p then f else 0) := by
    intro p
    rw [sumFreqIncs_append, sumFreqIncs_single]
  have hmemS : ∀ p, p ∈ (incs ++ [(q, f)]).map Prod.fst ↔
      p ∈ incs.map Prod.fst ∨ p = q := by
    intro p
    simp [eq_comm]
  simp only [gmfpStep]
  by_cases hgt : st.hf < st.cnt q + f
  · rw [if_pos hgt]
    refine ⟨?_, ?_, by simp, fun _ => ⟨?_, ?_, ?_⟩⟩
    · show ∀ p, (if p = q then st.cnt q + f else st.cnt p) = sumFreqIncs (incs ++ [(q, f)]) p
      intro p
      by_cases hpq : p = q
      · subst hpq
        rw [if_pos rfl, hS p, if_pos rfl, h1 p]
      · rw [if_neg hpq, hS p, if_neg (fun he => hpq he.symm), h1 p]
        omega
    · show ∀ p, sumFreqIncs (incs ++ [(q, f)]) p ≤ st.cnt q + f
      intro p
      rw [hS p]
      by_cases hpq : q = p
      · subst hpq
        rw [if_pos rfl]
        have hq := h1 q
        omega
      · rw [if_neg hpq]
        have := h2 p
        omega
    · show q ∈ (incs ++ [(q, f)]).map Prod.fst
      simp
    · show sumFreqIncs (incs ++ [(q, f)]) q = st.cnt q + f
      rw [hS q, if_pos rfl, h1 q]
    · show ∀ p ∈ (incs ++ [(q, f)]).map Prod.fst,
        sumFreqIncs (incs ++ [(q, f)]) p = st.cnt q + f → p ≤ q
      intro p hp hpeq
      by_cases hpq : p = q
      · exact le_of_eq hpq
      · exfalso
        rw [hS p, if_neg (fun he => hpq he.symm)] at hpeq
        have := h2 p
        omega
  · rw [if_neg hgt]
    by_cases heq : st.cnt q + f = st.hf
    · rw [if_pos heq]
      refine ⟨?_, ?_, by simp, fun _ => ?_⟩
      · show ∀ p, (if p = q then st.cnt q + f else st.cnt p) = sumFreqIncs (incs ++ [(q, f)]) p
        intro p
        by_cases hpq : p = q
        · subst hpq
          rw [if_pos rfl, hS p, if_pos rfl, h1 p]
        · rw [if_neg hpq, hS p, if_neg (fun he => hpq he.symm), h1 p]
          omega
      · show ∀ p, sumFreqIncs (incs ++ [(q, f)]) p ≤ st.hf
        intro p
        rw [hS p]
        by_cases hpq : q = p
        · subst hpq
          rw [if_pos rfl]
          have hq := h1 q
          omega
        · rw [if_neg hpq]
          have := h2 p
          omega
      · by_cases hincs : incs = []
        · subst hincs
          obtain ⟨hhf0, hbest⟩ := h3 rfl
          have hmax : max st.best q = q := by
            rw [hbest]
            exact max_eq_right (word_nil_le q)
          refine ⟨?_, ?_, ?_⟩
          · show max st.best q ∈ ([] ++ [(q, f)]).map Prod.fst
            rw [hmax]
            simp
          · show sumFreqIncs ([] ++ [(q, f)]) (max st.best q) = st.hf
            rw [hmax, hS q, if_pos rfl, sumFreqIncs_nil]
            have hq := h1 q
            rw [sumFreqIncs_nil] at hq
            omega
          · show ∀ p ∈ ([] ++ [(q, f)]).map Prod.fst,
              sumFreqIncs ([] ++ [(q, f)]) p = st.hf → p ≤ max st.best q
            intro p hp _
            rw [hmax]
            have hpq : p = q := by
              rcases (hmemS p).mp hp with hmem | hpq
              · exact absurd hmem (List.not_mem_nil p)
              · exact hpq
            exact le_of_eq hpq
        · obtain ⟨hb_mem, hb_eq, hb_max⟩ := h4 hincs
          refine ⟨?_, ?_, ?_⟩
          · show max st.best q ∈ (incs ++ [(q, f)]).map Prod.fst
            rcases max_choice st.best q with hc | hc <;> rw [hc]
            · rw [List.map_append]
              exact List.mem_append_left _ hb_mem
            · simp
          · show sumFreqIncs (incs ++ [(q, f)]) (max st.best q) = st.hf
            rcases max_choice st.best q with hc | hc <;> rw [hc]
            · rw [hS st.best]
              by_cases hqb : q = st.best
              · rw [if_pos hqb]
                have hq := h1 q
                rw [hqb] at hq heq
                omega
              · rw [if_neg hqb, hb_eq]
                omega
            · rw [hS q, if_pos rfl]
              have hq := h1 q
              omega
          · show ∀ p ∈ (incs ++ [(q, f)]).map Prod.fst,
              sumFreqIncs (incs ++ [(q, f)]) p = st.hf → p ≤ max st.best q
            intro p hp hpeq
            by_cases hpq : p = q
            · subst hpq
              exact le_max_right st.best p
            · rw [hS p, if_neg (fun he => hpq he.symm)] at hpeq
              rcases (hmemS p).mp hp with hmem | habs
              · exact le_trans (hb_max p hmem (by omega)) (le_max_left st.best q)
              · exact absurd habs hpq
    · rw [if_neg heq]
      have hlt : st.cnt q + f < st.hf := by omega
      refine ⟨?_, ?_, by simp, fun _ => ?_⟩
      · show ∀ p, (if p = q then st.cnt q + f else st.cnt p) = sumFreqIncs (incs ++ [(q, f)]) p
        intro p
        by_cases hpq : p = q
        · subst hpq
          rw [if_pos rfl, hS p, if_pos rfl, h1 p]
        · rw [if_neg hpq, hS p, if_neg (fun he => hpq he.symm), h1 p]
          omega
      · show ∀ p, sumFreqIncs (incs ++ [(q, f)]) p ≤ st.hf
        intro p
        rw [hS p]
        by_cases hpq : q = p
        · subst hpq
          rw [if_pos rfl]
          have hq := h1 q
          omega
        · rw [if_neg hpq]
          have := h2 p
          omega
      · have hincs : incs ≠ [] := by
          intro he
          have := (h3 he).1
          omega
        obtain ⟨hb_mem, hb_eq, hb_max⟩ := h4 hincs
        have hqb : q ≠ st.best := by
          intro he
          have hq := h1 q
          rw [he] at hq hlt
          rw [hb_eq] at hq
          omega
        refine ⟨?_, ?_, ?_⟩
        · show st.best ∈ (incs ++ [(q, f)]).map Prod.fst
          rw [List.map_append]
          exact List.mem_append_left _ hb_mem
        · show sumFreqIncs (incs ++ [(q, f)]) st.best = st.hf
          rw [hS st.best, if_neg hqb, hb_eq]
          omega
        · show ∀ p ∈ (incs ++ [(q, f)]).map Prod.fst,
            sumFreqIncs (incs ++ [(q, f)]) p = st.hf → p ≤ st.best
          intro p hp hpeq
          by_cases hpq : p = q
          · exfalso
            subst hpq
            rw [hS p, if_pos rfl] at hpeq
            have hq := h1 p
            omega
          · rw [hS p, if_neg (fun he => hpq he.symm)] at hpeq
            rcases (hmemS p).mp hp with hmem | habs
            · exact hb_max p hmem (by omega)
            · exact absurd habs hpq


theorem GInv_foldl (incs : List (Word × Nat)) :
    GInv incs (incs.foldl (fun st pf => gmfpStep pf.2 st pf.1) ⟨fun _ => 0, [], 0⟩) := by
  induction incs using List.reverseRecOn with
  | nil =>
    exact ⟨fun p => rfl, fun p => le_refl 0, fun _ => ⟨rfl, rfl⟩, fun hne => absurd rfl hne⟩
  | append_singleton incs pf ih =>
    obtain ⟨q, f⟩ := pf
    rw [List.foldl_append]
    exact GInv_step incs _ q f ih

theorem gmfpGo_eq_foldl (m : Model) :
    ∀ st, (∀ wf ∈ m, wf.1 ≠ []) →
      gmfpGo m st = some ((allIncs m).foldl (fun st pf => gmfpStep pf.2 st pf.1) st) := by
  induction m with
  | nil => intro st _; simp [gmfpGo, allIncs]
  | cons wf rest ih =>
    intro st hne
    obtain ⟨w, f⟩ := wf
    have hw : w ≠ [] := hne (w, f) (by simp)
    have hlen : ¬ w.length = 0 := by simpa using hw
    simp only [gmfpGo, if_neg hlen]
    rw [ih _ (fun x hx => hne x (by simp [hx]))]
    have hall : allIncs ((w, f) :: rest)
        = (adjPairs w).map (fun p => (p, f)) ++ allIncs rest := by
      simp [allIncs]
    rw [hall, List.foldl_append, List.foldl_map]

theorem sumFreqIncs_word (l : List Word) (f : Nat) (p : Word) :
    sumFreqIncs (l.map (fun x => (x, f))) p = f * l.count p := by
  induction l with
  | nil => simp [sumFreqIncs]
  | cons x rest ih =>
    simp only [List.map_cons, sumFreqIncs, List.sum_cons] at ih ⊢
    rw [ih]
    by_cases hxp : x = p
    · subst hxp
      rw [if_pos rfl, List.count_cons_self, Nat.mul_add, Nat.mul_one]
      omega
    · rw [if_neg hxp, List.count_cons_of_ne (fun he => hxp he.symm)]
      omega

theorem sumFreqIncs_allIncs (m : Model) (p : Word) :
    sumFreqIncs (allIncs m) p = aggFreq m p := by
  induction m with
  | nil => rfl
  | cons wf rest ih =>
    obtain ⟨w, f⟩ := wf
    have hall : allIncs ((w, f) :: rest)
        = (adjPairs w).map (fun x => (x, f)) ++ allIncs rest := by
      simp [allIncs]
    rw [hall, sumFreqIncs_append, ih, sumFreqIncs_word]
    simp [aggFreq]

theorem mem_allIncs_fst (m : Model) (p : Word) :
    p ∈ (allIncs m).map Prod.fst ↔ occursIn m p := by
  simp only [allIncs, occursIn, List.mem_map, List.mem_flatten]
  constructor
  · rintro ⟨⟨x, fx⟩, ⟨l, ⟨wf, hwf, rfl⟩, hx⟩, rfl⟩
    rcases List.mem_map.mp hx with ⟨x2, hx2, he⟩
    have hx2x : x2 = x := ((Prod.mk.injEq _ _ _ _).mp he).1
    subst hx2x
    exact ⟨wf, hwf, hx2⟩
  · rintro ⟨wf, hwf, hp⟩
    exact ⟨(p, wf.2), ⟨(adjPairs wf.1).map (fun x => (x, wf.2)),
      ⟨wf, hwf, rfl⟩, List.mem_map.mpr ⟨p, hp, rfl⟩⟩, rfl⟩

theorem allIncs_eq_nil_iff (m : Model) :
    allIncs m = [] ↔ ∀ wf ∈ m, wf.1.length < 2 := by
  simp only [allIncs, List.flatten_eq_nil_iff, List.mem_map]
  constructor
  · intro h wf hwf
    have := h _ ⟨wf, hwf, rfl⟩
    simp only [List.map_eq_nil_iff, adjPairs, List.range_eq_nil] at this
    omega
  · rintro h l ⟨wf, hwf, rfl⟩
    have := h wf hwf
    simp only [List.map_eq_nil_iff, adjPairs, List.range_eq_nil]
    omega


theorem gmfp_spec (m : Model) (hne : ∀ wf ∈ m, wf.1 ≠ []) :
    ∃ b hf, get_most_frequent_pair m = some (b, hf)
      ∧ (∀ p, aggFreq m p ≤ hf)
      ∧ ((∀ wf ∈ m, wf.1.length < 2) → b = [] ∧ hf = 0)
      ∧ ((∃ wf ∈ m, 2 ≤ wf.1.length) →
          occursIn m b ∧ aggFreq m b = hf
          ∧ ∀ p, occursIn m p → aggFreq m p = hf → p ≤ b) := by
  have hgo := gmfpGo_eq_foldl m ⟨fun _ => 0, [], 0⟩ hne
  obtain ⟨h1, h2, h3, h4⟩ := GInv_foldl (allIncs m)
  refine ⟨((allIncs m).foldl (fun st pf => gmfpStep pf.2 st pf.1)
    ⟨fun _ => 0, [], 0⟩).best,
    ((allIncs m).foldl (fun st pf => gmfpStep pf.2 st pf.1)
    ⟨fun _ => 0, [], 0⟩).hf, ?_, ?_, ?_, ?_⟩
  · rw [get_most_frequent_pair, hgo]
    rfl
  · intro p
    rw [← sumFreqIncs_allIncs]
    exact h2 p
  · intro hall
    have hnil : allIncs m = [] := (allIncs_eq_nil_iff m).mpr hall
    obtain ⟨hhf, hbest⟩ := h3 hnil
    exact ⟨hbest, hhf⟩
  · intro hex
    have hnnil : allIncs m ≠ [] := by
      intro hnil
      obtain ⟨wf, hwf, hlen⟩ := hex
      have := (allIncs_eq_nil_iff m).mp hnil wf hwf
      omega
    obtain ⟨hb_mem, hb_eq, hb_max⟩ := h4 hnnil
    refine ⟨(mem_allIncs_fst m _).mp hb_mem, ?_, ?_⟩
    · rw [← sumFreqIncs_allIncs]
      exact hb_eq
    · intro p hp hpeq
      refine hb_max p ((mem_allIncs_fst m p).mpr hp) ?_
      rw [sumFreqIncs_allIncs]
      exact hpeq

/-- C2: for every corpus model whose words are non-empty,
`get_most_frequent_pair` returns frequency 0 when no word has length at
least 2; otherwise the returned frequency is the maximal aggregate
frequency (sum over words of count times adjacent occurrences) and the
returned pair is the lexicographically greatest pair attaining it
(element-wise on the symbol strings); and the result is unchanged under any
permutation of the map's iteration order. -/
theorem C2_most_frequent_pair (m : Model) (hne : ∀ wf ∈ m, wf.1 ≠ []) :
    ∃ b hf, get_most_frequent_pair m = some (b, hf)
      ∧ ((∀ wf ∈ m, wf.1.length < 2) → hf = 0)
      ∧ ((∃ wf ∈ m, 2 ≤ wf.1.length) →
          aggFreq m b = hf ∧ (∀ p, aggFreq m p ≤ hf)
          ∧ occursIn m b ∧ (∀ p, occursIn m p → aggFreq m p = hf → p ≤ b))
      ∧ (∀ m2 : Model, m.Perm m2 → get_most_frequent_pair m2 = get_most_frequent_pair m) := by
  obtain ⟨b, hf, heq, hub, hdeg, hach⟩ := gmfp_spec m hne
  refine ⟨b, hf, heq, fun h => (hdeg h).2,
    fun h => ⟨(hach h).2.1, hub, (hach h).1, (hach h).2.2⟩, ?_⟩
  intro m2 hperm
  have hagg : ∀ p, aggFreq m2 p = aggFreq m p := by
    intro p
    exact ((hperm.map _).sum_eq).symm
  have hocc : ∀ p, occursIn m2 p ↔ occursIn m p := by
    intro p
    constructor
    · rintro ⟨wf, hwf, hp⟩
      exact ⟨wf, hperm.mem_iff.mpr hwf, hp⟩
    · rintro ⟨wf, hwf, hp⟩
      exact ⟨wf, hperm.mem_iff.mp hwf, hp⟩
  have hne2 : ∀ wf ∈ m2, wf.1 ≠ [] := fun wf hwf => hne wf (hperm.mem_iff.mpr hwf)
  obtain ⟨b2, hf2, heq2, hub2, hdeg2, hach2⟩ := gmfp_spec m2 hne2
  rw [heq, heq2]
  by_cases hcase : ∃ wf ∈ m, 2 ≤ wf.1.length
  · obtain ⟨hocc_b, hb_eq, hb_max⟩ := hach hcase
    have hcase2 : ∃ wf ∈ m2, 2 ≤ wf.1.length := by
      obtain ⟨wf, hwf, hl⟩ := hcase
      exact ⟨wf, hperm.mem_iff.mp hwf, hl⟩
    obtain ⟨hocc_b2, hb2_eq, hb2_max⟩ := hach2 hcase2
    have hfe : hf = hf2 := by
      have hle1 : hf ≤ hf2 := by
        rw [← hb_eq, ← hagg b]
        exact hub2 b
      have hle2 : hf2 ≤ hf := by
        rw [← hb2_eq, hagg b2]
        exact hub b2
      omega
    have hbb : b ≤ b2 := by
      refine hb2_max b ((hocc b).mpr hocc_b) ?_
      rw [hagg b, hb_eq, hfe]
    have hbb2 : b2 ≤ b := by
      refine hb_max b2 ((hocc b2).mp hocc_b2) ?_
      rw [← hagg b2, hb2_eq, hfe]
    rw [le_antisymm hbb2 hbb, hfe]
  · have hall : ∀ wf ∈ m, wf.1.length < 2 := by
      intro wf hwf
      by_contra hh
      exact hcase ⟨wf, hwf, by omega⟩
    have hall2 : ∀ wf ∈ m2, wf.1.length < 2 :=
      fun wf hwf => hall wf (hperm.mem_iff.mpr hwf)
    obtain ⟨hb, hhf⟩ := hdeg hall
    obtain ⟨hb2, hhf2⟩ := hdeg2 hall2
    rw [hb, hhf, hb2, hhf2]

theorem C2_most_frequent_pair_witness :
    ∃ b hf,
      get_most_frequent_pair [([['t'], ['e'], ['s'], ['t']], 2), ([['e'], ['s']], 1)]
        = some (b, hf)
      ∧ ((∀ wf ∈ ([([['t'], ['e'], ['s'], ['t']], 2), ([['e'], ['s']], 1)] : Model),
            wf.1.length < 2) → hf = 0)
      ∧ ((∃ wf ∈ ([([['t'], ['e'], ['s'], ['t']], 2), ([['e'], ['s']], 1)] : Model),
            2 ≤ wf.1.length) →
          aggFreq [([['t'], ['e'], ['s'], ['t']], 2), ([['e'], ['s']], 1)] b = hf
          ∧ (∀ p, aggFreq [([['t'], ['e'], ['s'], ['t']], 2), ([['e'], ['s']], 1)] p ≤ hf)
          ∧ occursIn [([['t'], ['e'], ['s'], ['t']], 2), ([['e'], ['s']], 1)] b
          ∧ (∀ p, occursIn [([['t'], ['e'], ['s'], ['t']], 2), ([['e'], ['s']], 1)] p →
              aggFreq [([['t'], ['e'], ['s'], ['t']], 2), ([['e'], ['s']], 1)] p = hf → p ≤ b))
      ∧ (∀ m2 : Model,
          ([([['t'], ['e'], ['s'], ['t']], 2), ([['e'], ['s']], 1)] : Model).Perm m2 →
          get_most_frequent_pair m2
            = get_most_frequent_pair [([['t'], ['e'], ['s'], ['t']], 2), ([['e'], ['s']], 1)]) :=
  C2_most_frequent_pair [([['t'], ['e'], ['s'], ['t']], 2), ([['e'], ['s']], 1)] (by decide)


theorem mergeScanSpec_flatten (p0 p1 : Str) : ∀ w : Word,
    (mergeScanSpec p0 p1 w).flatten = w.flatten := by
  intro w
  induction w using mergeScanSpec.induct p0 p1 with
  | case1 a b rest hm ih =>
    rw [mergeScanSpec_cons2, if_pos hm]
    obtain ⟨ha, hb⟩ := hm
    subst ha hb
    simp only [List.flatten_cons, ih, List.append_assoc]
  | case2 a b rest hm ih =>
    rw [mergeScanSpec_cons2, if_neg hm]
    simp only [List.flatten_cons, ih]
  | case3 w h =>
    match w with
    | [] => rfl
    | [a] => rfl
    | a :: b :: rest => exact absurd rfl (h a b rest)

theorem mergeScanSpec_ne_nil (p0 p1 : Str) (w : Word) (h : w ≠ []) :
    mergeScanSpec p0 p1 w ≠ [] := by
  match w with
  | [a] => simp [mergeScanSpec_single]
  | a :: b :: rest =>
    rw [mergeScanSpec_cons2]
    by_cases hm : a = p0 ∧ b = p1
    · simp [hm]
    · simp [hm]

theorem mergeScanSpec_syms (p0 p1 : Str) : ∀ w : Word, (∀ s ∈ w, s ≠ []) →
    ∀ s ∈ mergeScanSpec p0 p1 w, s ≠ [] := by
  intro w
  induction w using mergeScanSpec.induct p0 p1 with
  | case1 a b rest hm ih =>
    intro hw s hs
    rw [mergeScanSpec_cons2, if_pos hm] at hs
    rcases List.mem_cons.mp hs with rfl | hs2
    · obtain ⟨ha, _⟩ := hm
      have hane : a ≠ [] := hw a (by simp)
      subst ha
      simp [hane]
    · exact ih (fun t ht => hw t (by simp [ht])) s hs2
  | case2 a b rest hm ih =>
    intro hw s hs
    rw [mergeScanSpec_cons2, if_neg hm] at hs
    rcases List.mem_cons.mp hs with rfl | hs2
    · exact hw s (by simp)
    · refine ih (fun t ht => hw t ?_) s hs2
      simp only [List.mem_cons] at ht ⊢
      tauto
  | case3 w h =>
    intro hw s hs
    have hww : mergeScanSpec p0 p1 w = w := by
      match w with
      | [] => rfl
      | [a] => rfl
      | a :: b :: rest => exact absurd rfl (h a b rest)
    rw [hww] at hs
    exact hw s hs

theorem addCount_keys (P : Word → Prop) (w : Word) (c : Nat) :
    ∀ m : Model, (∀ e ∈ m, P e.1) → P w → ∀ e ∈ addCount m w c, P e.1 := by
  intro m
  induction m with
  | nil =>
    intro _ hw e he
    simp only [addCount, List.mem_singleton] at he
    subst he
    exact hw
  | cons x rest ih =>
    intro hm hw e he
    obtain ⟨w', c'⟩ := x
    simp only [addCount] at he
    by_cases hx : w' = w
    · rw [if_pos hx] at he
      rcases List.mem_cons.mp he with rfl | he2
      · exact hm (w', c') (by simp)
      · exact hm e (by simp [he2])
    · rw [if_neg hx] at he
      rcases List.mem_cons.mp he with rfl | he2
      · exact hm (w', c') (by simp)
      · exact ih (fun y hy => hm y (by simp [hy])) hw e he2

theorem text_to_map_keys (P : Word → Prop) (units : List Str)
    (hu : ∀ u ∈ units, P (u.map (fun c => [c]))) :
    ∀ e ∈ text_to_map units, P e.1 := by
  rw [text_to_map]
  suffices hgen : ∀ (us : List Str) (m0 : Model), (∀ u ∈ us, P (u.map (fun c => [c]))) →
      (∀ e ∈ m0, P e.1) →
      ∀ e ∈ us.foldl (fun words word => addCount words (word.map (fun c => [c])) 1) m0, P e.1 by
    exact hgen units [] hu (by simp)
  intro us
  induction us with
  | nil => intro m0 _ hm0 e he; exact hm0 e he
  | cons u rest ih =>
    intro m0 hus hm0 e he
    simp only [List.foldl_cons] at he
    refine ih _ (fun x hx => hus x (by simp [hx])) ?_ e he
    exact addCount_keys P _ 1 m0 hm0 (hus u (by simp))

theorem mergeGo_keys (p0 p1 : Str) (Q : Word → Prop) :
    ∀ (src acc m' : Model), mergeGo p0 p1 src acc = some m' →
      (∀ e ∈ acc, Q e.1) → (∀ e ∈ src, Q (mergeLoop p0 p1 e.1 0)) →
      ∀ e ∈ m', Q e.1 := by
  intro src
  induction src with
  | nil =>
    intro acc m' h hacc _
    simp only [mergeGo, Option.some.injEq] at h
    rw [← h]
    exact hacc
  | cons x rest ih =>
    intro acc m' h hacc hsrc
    obtain ⟨w, f⟩ := x
    simp only [mergeGo] at h
    by_cases hw : w.length = 0
    · rw [if_pos hw] at h
      simp at h
    · rw [if_neg hw] at h
      refine ih _ _ h ?_ (fun e he => hsrc e (by simp [he]))
      exact addCount_keys Q _ f acc hacc (hsrc (w, f) (by simp))

theorem dictInsert_keys (P : Str × Word → Prop) (k : Str) (v : Word) :
    ∀ d : Dict, (∀ e ∈ d, P e) → P (k, v) → ∀ e ∈ dictInsert d k v, P e := by
  intro d
  induction d with
  | nil =>
    intro _ hkv e he
    simp only [dictInsert, List.mem_singleton] at he
    subst he
    exact hkv
  | cons x rest ih =>
    intro hd hkv e he
    obtain ⟨k', v'⟩ := x
    simp only [dictInsert] at he
    by_cases hx : k' = k
    · rw [if_pos hx] at he
      rcases List.mem_cons.mp he with rfl | he2
      · exact hkv
      · exact hd e (by simp [he2])
    · rw [if_neg hx] at he
      rcases List.mem_cons.mp he with rfl | he2
      · exact hd (k', v') (by simp)
      · exact ih (fun y hy => hd y (by simp [hy])) hkv e he2

theorem buildDict_keys (P : Str × Word → Prop) (m : Model)
    (h : ∀ wf ∈ m, P (wf.1.flatten, wf.1)) : ∀ e ∈ buildDict m, P e := by
  rw [buildDict]
  suffices hgen : ∀ (ms : Model) (d0 : Dict), (∀ wf ∈ ms, P (wf.1.flatten, wf.1)) →
      (∀ e ∈ d0, P e) →
      ∀ e ∈ ms.foldl (fun map wf => dictInsert map wf.1.flatten wf.1) d0, P e by
    exact hgen m [] h (by simp)
  intro ms
  induction ms with
  | nil => intro d0 _ hd0 e he; exact hd0 e he
  | cons wf rest ih =>
    intro d0 hms hd0 e he
    simp only [List.foldl_cons] at he
    refine ih _ (fun x hx => hms x (by simp [hx])) ?_ e he
    exact dictInsert_keys P _ _ d0 hd0 (hms wf (by simp))

theorem trainLoop_keys (Q : Word → Prop)
    (hpres : ∀ p0 p1 (w : Word), Q w → Q (mergeLoop p0 p1 w 0)) :
    ∀ (fuel : Nat) (m : Model) (v : Nat) (r : Model × Nat), trainLoop fuel m v = some r →
      (∀ e ∈ m, Q e.1) → ∀ e ∈ r.1, Q e.1 := by
  intro fuel
  induction fuel with
  | zero =>
    intro m v r h hm
    simp only [trainLoop, Option.some.injEq] at h
    rw [← h]
    exact hm
  | succ fuel ih =>
    intro m v r h hm
    rw [trainLoop] at h
    split at h
    · simp at h
    · rename_i pair freq hg
      split at h
      · simp only [Option.some.injEq] at h
        rw [← h]
        exact hm
      · split at h
        · rename_i p0 p1
          split at h
          · simp at h
          · rename_i m2 hm2
            refine ih _ _ _ h ?_
            exact mergeGo_keys p0 p1 Q m [] m2 hm2 (by simp)
              (fun e he => hpres p0 p1 e.1 (hm e he))
        · simp at h

theorem build_vocablary_length (corpus : Str) :
    (build_vocablary corpus).length = corpus.dedup.length + 2 := by
  simp [build_vocablary]

theorem fromCorpus_eq (corpus : Str) (maxV : Nat) :
    fromCorpus corpus maxV
      = if maxV ≤ corpus.dedup.length then none
        else
          match trainLoop (maxV - corpus.dedup.length)
              (text_to_map (pre_tokenize corpus)) corpus.dedup.length with
          | none => none
          | some (m, v) => some ⟨v, buildDict m⟩ := by
  simp only [fromCorpus, build_vocablary_length, Nat.add_sub_cancel]
  by_cases h1 : maxV ≤ corpus.dedup.length
  · rw [if_pos h1, if_pos h1]
  · rw [if_neg h1, if_neg h1, if_neg (by omega)]


theorem flatten_split (u : Str) : (u.map (fun c => [c])).flatten = u := by
  induction u with
  | nil => rfl
  | cons c cs ih => simp [ih]

/-- C4: merging two adjacent symbols into their concatenation never changes
the concatenation of a word's symbols, so in a trained tokenizer every
dictionary key equals the concatenation of its value's symbol strings and
is the surface string of a pre-tokenized word unit of the corpus. -/
theorem C4_surface_string_invariant (corpus : Str) (maxV : Nat) (bpe : BytePairEncoding)
    (h : fromCorpus corpus maxV = some bpe) :
    (∀ p0 p1 (w : Word), (mergeLoop p0 p1 w 0).flatten = w.flatten)
    ∧ ∀ k v, (k, v) ∈ bpe.tokenizer → k = v.flatten ∧ k ∈ pre_tokenize corpus := by
  refine ⟨fun p0 p1 w => by rw [mergeLoop_eq_scan]; exact mergeScanSpec_flatten p0 p1 w, ?_⟩
  rw [fromCorpus_eq] at h
  by_cases h1 : maxV ≤ corpus.dedup.length
  · rw [if_pos h1] at h
    exact absurd h (by simp)
  · rw [if_neg h1] at h
    split at h
    · exact absurd h (by simp)
    · rename_i m v htrain
      simp only [Option.some.injEq] at h
      rw [← h]
      intro k v' hkv
      have hQ : ∀ e ∈ m, e.1.flatten ∈ pre_tokenize corpus := by
        refine trainLoop_keys (fun w => w.flatten ∈ pre_tokenize corpus) ?_ _ _ _ _ htrain ?_
        · intro p0 p1 w hw
          rw [mergeLoop_eq_scan, mergeScanSpec_flatten]
          exact hw
        · refine text_to_map_keys (fun w => w.flatten ∈ pre_tokenize corpus)
            (pre_tokenize corpus) ?_
          intro u hu
          rw [flatten_split]
          exact hu
      exact buildDict_keys (fun e => e.1 = e.2.flatten ∧ e.1 ∈ pre_tokenize corpus) m
        (fun wf hwf => ⟨rfl, hQ wf hwf⟩) (k, v') hkv

theorem C4_surface_string_invariant_witness :
    (∀ p0 p1 (w : Word), (mergeLoop p0 p1 w 0).flatten = w.flatten)
    ∧ ∀ k v, (k, v) ∈ (BytePairEncoding.mk 3 [("ab".data, [['a', 'b']])]).tokenizer →
        k = v.flatten ∧ k ∈ pre_tokenize "ab".data :=
  C4_surface_string_invariant "ab".data 3 (BytePairEncoding.mk 3 [("ab".data, [['a', 'b']])])
    (by decide)

theorem preTokGo_ne_nil (cs : Str) : ∀ buf : Str, buf ≠ [] →
    ∀ u ∈ preTokGo buf cs, u ≠ [] := by
  induction cs with
  | nil =>
    intro buf hb u hu
    simp only [preTokGo, List.mem_singleton] at hu
    subst hu
    exact hb
  | cons c cs ih =>
    intro buf hb u hu
    simp only [preTokGo] at hu
    by_cases hcond : buf ≠ [] ∧ c ∈ PUNCTUATION
    · rw [if_pos hcond] at hu
      rcases List.mem_cons.mp hu with rfl | hu2
      · exact hb
      · exact ih [c] (by simp) u hu2
    · rw [if_neg hcond] at hu
      exact ih (buf ++ [c]) (by simp) u hu

theorem pre_tokenize_ne_nil (corpus : Str) (h : corpus ≠ []) :
    ∀ u ∈ pre_tokenize corpus, u ≠ [] := by
  match corpus with
  | c :: cs =>
    intro u hu
    rw [pre_tokenize] at hu
    simp only [preTokGo] at hu
    rw [if_neg (by simp)] at hu
    exact preTokGo_ne_nil cs ([] ++ [c]) (by simp) u hu

theorem model_keys_ne_nil (corpus : Str) (h : corpus ≠ []) :
    ∀ e ∈ text_to_map (pre_tokenize corpus), e.1 ≠ [] := by
  refine text_to_map_keys (fun w => w ≠ []) (pre_tokenize corpus) ?_
  intro u hu
  have hune := pre_tokenize_ne_nil corpus h u hu
  simp only [ne_eq, List.map_eq_nil_iff]
  exact hune

theorem gmfp_isSome (m : Model) (hne : ∀ e ∈ m, e.1 ≠ []) :
    (get_most_frequent_pair m).isSome := by
  obtain ⟨b, hf, heq, -⟩ := gmfp_spec m hne
  rw [heq]
  rfl

theorem adjPairs_shape (w : Word) : ∀ p ∈ adjPairs w, ∃ a b, p = [a, b] := by
  intro p hp
  simp only [adjPairs, List.mem_map] at hp
  obtain ⟨i, -, rfl⟩ := hp
  exact ⟨_, _, rfl⟩

theorem gmfp_pair_shape (m : Model) (hne : ∀ wf ∈ m, wf.1 ≠ []) (b : Word) (hf : Nat)
    (heq : get_most_frequent_pair m = some (b, hf)) (hf0 : hf ≠ 0) :
    ∃ a c, b = [a, c] := by
  have hgo := gmfpGo_eq_foldl m ⟨fun _ => 0, [], 0⟩ hne
  obtain ⟨h1, h2, h3, h4⟩ := GInv_foldl (allIncs m)
  rw [get_most_frequent_pair, hgo] at heq
  simp only [Option.map_some', Option.some.injEq, Prod.mk.injEq] at heq
  obtain ⟨hb, hhf⟩ := heq
  by_cases hnil : allIncs m = []
  · have := (h3 hnil).1
    omega
  · obtain ⟨hmem, -, -⟩ := h4 hnil
    have hoc := (mem_allIncs_fst m _).mp hmem
    obtain ⟨wf, -, hp⟩ := hoc
    obtain ⟨a, c, hshape⟩ := adjPairs_shape wf.1 _ hp
    exact ⟨a, c, hb ▸ hshape⟩

theorem mergeGo_isSome (p0 p1 : Str) :
    ∀ (src acc : Model), (∀ e ∈ src, e.1 ≠ []) → (mergeGo p0 p1 src acc).isSome := by
  intro src
  induction src with
  | nil => intro acc _; rfl
  | cons x rest ih =>
    intro acc hsrc
    obtain ⟨w, f⟩ := x
    have hw : w ≠ [] := hsrc (w, f) (by simp)
    have hlen : ¬ w.length = 0 := by simpa using hw
    simp only [mergeGo, if_neg hlen]
    exact ih _ (fun e he => hsrc e (by simp [he]))

theorem trainLoop_isSome : ∀ (fuel : Nat) (m : Model) (v : Nat),
    (∀ e ∈ m, e.1 ≠ []) → (trainLoop fuel m v).isSome := by
  intro fuel
  induction fuel with
  | zero => intro m v _; rfl
  | succ fuel ih =>
    intro m v hm
    rw [trainLoop]
    obtain ⟨b, hf, heq, -⟩ := gmfp_spec m hm
    rw [heq]
    by_cases hf0 : hf = 0
    · show (if hf = 0 then some (m, v) else _).isSome
      rw [if_pos hf0]
      rfl
    · show (if hf = 0 then some (m, v) else _).isSome
      rw [if_neg hf0]
      obtain ⟨a, c, rfl⟩ := gmfp_pair_shape m hm b hf heq hf0
      show (match merge_by_pair m a c with
        | none => none
        | some m' => trainLoop fuel m' (v + 1)).isSome
      have hms := mergeGo_isSome a c m [] hm
      obtain ⟨m2, hm2⟩ := Option.isSome_iff_exists.mp hms
      have hm2' : merge_by_pair m a c = some m2 := hm2
      rw [hm2']
      refine ih m2 (v + 1) ?_
      exact mergeGo_keys a c (fun w => w ≠ []) m [] m2 hm2 (by simp)
        (fun e he => by
          rw [mergeLoop_eq_scan]
          exact mergeScanSpec_ne_nil a c e.1 (hm e he))

/-- C9: on a non-empty corpus every pre-tokenized unit (hence every corpus
model word) is non-empty, so the loop bounds of `get_most_frequent_pair`
and `merge_by_pair` never underflow and training runs to completion; on the
empty corpus `pre_tokenize` yields one empty unit and `BytePairEncoding::from`
panics (here: `none`) for every target size at least 1. -/
theorem C9_no_underflow (corpus : Str) (n : Nat) (hcorp : corpus ≠ []) (hn : 1 ≤ n) :
    (∀ u ∈ pre_tokenize corpus, u ≠ [])
    ∧ (∀ e ∈ text_to_map (pre_tokenize corpus), e.1 ≠ [])
    ∧ (get_most_frequent_pair (text_to_map (pre_tokenize corpus))).isSome
    ∧ pre_tokenize ([] : Str) = [[]]
    ∧ fromCorpus [] n = none
    ∧ (corpus.dedup.length < n → (fromCorpus corpus n).isSome) := by
  have hk := model_keys_ne_nil corpus hcorp
  refine ⟨pre_tokenize_ne_nil corpus hcorp, hk, gmfp_isSome _ hk, rfl, ?_, ?_⟩
  · rw [fromCorpus_eq]
    have hd : ([] : Str).dedup.length = 0 := rfl
    rw [hd, if_neg (by omega), Nat.sub_zero]
    obtain ⟨k, rfl⟩ : ∃ k, n = k + 1 := ⟨n - 1, by omega⟩
    have htl : trainLoop (k + 1) (text_to_map (pre_tokenize ([] : Str))) 0 = none := by
      rw [trainLoop]
      have hg : get_most_frequent_pair (text_to_map (pre_tokenize ([] : Str))) = none := rfl
      rw [hg]
    rw [htl]
  · intro hlt
    rw [fromCorpus_eq, if_neg (by omega)]
    have hts := trainLoop_isSome (n - corpus.dedup.length)
      (text_to_map (pre_tokenize corpus)) corpus.dedup.length hk
    obtain ⟨⟨m2, v2⟩, hr⟩ := Option.isSome_iff_exists.mp hts
    rw [hr]
    rfl

theorem C9_no_underflow_witness :
    ((['a', 'b'] : Str) ≠ [] ∧ 1 ≤ 3)
    ∧ ((∀ u ∈ pre_tokenize ['a', 'b'], u ≠ [])
      ∧ (∀ e ∈ text_to_map (pre_tokenize ['a', 'b']), e.1 ≠ [])
      ∧ (get_most_frequent_pair (text_to_map (pre_tokenize ['a', 'b']))).isSome
      ∧ pre_tokenize ([] : Str) = [[]]
      ∧ fromCorpus [] 3 = none
      ∧ ((['a', 'b'] : Str).dedup.length < 3 → (fromCorpus ['a', 'b'] 3).isSome)) :=
  ⟨⟨by decide, by decide⟩, C9_no_underflow ['a', 'b'] 3 (by decide) (by decide)⟩

theorem getVal_eq_none (d : Dict) (u : Str) (h : ∀ e ∈ d, e.1 ≠ u) :
    getVal d u = none := by
  induction d with
  | nil => rfl
  | cons e rest ih =>
    obtain ⟨k, v⟩ := e
    have hk : k ≠ u := h (k, v) (by simp)
    simp only [getVal, if_neg hk]
    exact ih (fun x hx => h x (by simp [hx]))

/-- C10: a tokenizer trained on a non-empty corpus rejects the empty input:
`pre_tokenize` of the empty string yields one empty word unit, and every
dictionary key is a non-empty string, so the lookup fails. -/
theorem C10_tokenize_empty_fails (corpus : Str) (maxV : Nat) (bpe : BytePairEncoding)
    (hcorp : corpus ≠ []) (h : fromCorpus corpus maxV = some bpe) :
    tokenize bpe [] = none := by
  have hkeys : ∀ e ∈ bpe.tokenizer, e.1 ≠ ([] : Str) := by
    rw [fromCorpus_eq] at h
    by_cases h1 : maxV ≤ corpus.dedup.length
    · rw [if_pos h1] at h
      exact absurd h (by simp)
    · rw [if_neg h1] at h
      split at h
      · exact absurd h (by simp)
      · rename_i m v htrain
        simp only [Option.some.injEq] at h
        rw [← h]
        have hQ : ∀ e ∈ m, e.1 ≠ [] ∧ (∀ s ∈ e.1, s ≠ []) := by
          refine trainLoop_keys (fun w => w ≠ [] ∧ ∀ s ∈ w, s ≠ []) ?_ _ _ _ _ htrain ?_
          · intro p0 p1 w hw
            rw [mergeLoop_eq_scan]
            exact ⟨mergeScanSpec_ne_nil p0 p1 w hw.1, mergeScanSpec_syms p0 p1 w hw.2⟩
          · refine text_to_map_keys (fun w => w ≠ [] ∧ ∀ s ∈ w, s ≠ [])
              (pre_tokenize corpus) ?_
            intro u hu
            refine ⟨?_, ?_⟩
            · simp only [ne_eq, List.map_eq_nil_iff]
              exact pre_tokenize_ne_nil corpus hcorp u hu
            · intro s hs
              simp only [List.mem_map] at hs
              obtain ⟨c, -, rfl⟩ := hs
              simp
        refine buildDict_keys (fun e => e.1 ≠ ([] : Str)) m ?_
        intro wf hwf
        obtain ⟨hne', hsyms⟩ := hQ wf hwf
        obtain ⟨sh, rest, hcons⟩ := List.exists_cons_of_ne_nil hne'
        have hs := hsyms sh (by rw [hcons]; simp)
        rw [hcons]
        simp only [List.flatten_cons, ne_eq, List.append_eq_nil]
        intro hcon
        exact hs hcon.1
  rw [tokenize]
  have hpre : pre_tokenize ([] : Str) = [[]] := rfl
  rw [hpre]
  have hget : getVal bpe.tokenizer [] = none := getVal_eq_none _ _ hkeys
  simp [tokenizeGo, hget]

theorem C10_tokenize_empty_fails_witness :
    tokenize (BytePairEncoding.mk 3 [("ab".data, [['a', 'b']])]) [] = none :=
  C10_tokenize_empty_fails "ab".data 3 (BytePairEncoding.mk 3 [("ab".data, [['a', 'b']])])
    (by decide) (by decide)

/-- C1: contrary to the claim, requesting a target vocabulary size exactly
equal to the corpus's distinct-character count does not return an
empty-dictionary tokenizer: the `assert!(max_vocab_size > vocab_size)`
fires and the call panics (modelled as `none`); the source's
`if max_vocab_size == vocab_size` early return is unreachable.  Concretely,
`from("ab", 2)` panics. -/
theorem C1_equal_target_panics :
    (∀ corpus : Str, fromCorpus corpus corpus.dedup.length = none)
    ∧ fromCorpus "ab".data 2 = none := by
  refine ⟨fun corpus => ?_, by decide⟩
  rw [fromCorpus_eq, if_pos (le_refl _)]

/-- C8: training on `"This is not a token."` with target vocabulary size 18
tokenizes `"This token is not"` into exactly the expected marker-bracketed
sequence and fails on `"This token is not real"`. -/
theorem C8_scenario_c :
    (fromCorpus "This is not a token.".data 18).map
      (fun bpe => (tokenize bpe "This token is not".data,
        tokenize bpe "This token is not real".data))
    = some (some [START_TOKEN, "T".data, "h".data, "is".data, " ".data, "token".data,
        " ".data, "is".data, " ".data, "n".data, "ot".data, END_TOKEN], none) := by
  decide

end BPE
